import Mathlib

/-!
Verification of the action-language engine (project/engine) against its
specification.  The executor (`project/engine/executor.py`) is embedded
shallowly: Python `set[str]` becomes `Finset String`, the four rule
dictionaries become association lists with first-match lookup (Python dict
keys are unique, so first-match lookup coincides with dict lookup), and the
mutating loops become folds whose result coincides with the loop's final
set (set insertion is idempotent and the loops only add/remove elements,
so iteration order is irrelevant).

Effects and conditions are the raw strings the source uses: a negative
effect is the literal string "not f" (tested by `startswith("not ")` and
stripped by `[4:]`), exactly as in the source.
-/

/-- A state of the system: `fluents` holds, `released` is exempt from
inertia.  Mirrors `State` in executor.py (two Python sets of strings). -/
structure State where
  fluents : Finset String
  released : Finset String

/-- Equality of states is equality of the two sets.  (Installed by hand so
that the kernel can evaluate it on concrete states; the derived instance
transports `Decidable` values along `Eq.rec`, which does not reduce.) -/
instance : DecidableEq State := fun a b =>
  decidable_of_iff (a.fluents = b.fluents ∧ a.released = b.released)
    (by cases a; cases b; simp)

instance : DecidableEq (Option State) := fun x y =>
  match x, y with
  | none, none => isTrue rfl
  | none, some _ => isFalse fun h => Option.noConfusion h
  | some _, none => isFalse fun h => Option.noConfusion h
  | some a, some b =>
    if h : a = b then isTrue (by rw [h]) else isFalse fun e => h (Option.some.inj e)

/-- Decidable equality of state lists, again written so that the kernel
can evaluate it. -/
def decEqListState : (x y : List State) → Decidable (x = y)
  | [], [] => isTrue rfl
  | [], _ :: _ => isFalse fun h => List.noConfusion h
  | _ :: _, [] => isFalse fun h => List.noConfusion h
  | a :: _, b :: _ =>
    if h : a = b then
      match decEqListState _ _ with
      | isTrue h₂ => isTrue (by rw [h, h₂])
      | isFalse h₂ => isFalse fun e => h₂ (List.cons.inj e).2
    else isFalse fun e => h (List.cons.inj e).1

instance : DecidableEq (List State) := decEqListState

/-- `State.copy` in executor.py: builds a new `State` whose two sets are
fresh copies (`self.fluents.copy()`, `self.released.copy()`), so later
mutation of the copy never aliases the original. -/
def State.copy (s : State) : State :=
  { fluents := s.fluents, released := s.released }

/-- The rule base held by `ActionExecutor` in executor.py.
`causes_rules` maps an action to `(effect, conditions)` pairs,
`releases_rules` to released fluents, `impossible_rules` to condition
lists, and `always_rules` is the list of always effects. -/
structure ActionExecutor where
  causes_rules : List (String × List (String × List String))
  releases_rules : List (String × List String)
  impossible_rules : List (String × List (List String))
  always_rules : List String

/-- `ActionExecutor.is_action_possible`: an action is possible unless some
impossible-rule condition list for it has every condition string literally
contained in `state.fluents` (`cond in state.fluents` in the source — note
this is literal string membership, also for strings of the form "not f"). -/
def is_action_possible (ex : ActionExecutor) (action : String) (s : State) : Bool :=
  match ex.impossible_rules.lookup action with
  | none => true
  | some ruleList =>
    !(ruleList.any fun conditions => conditions.all fun c => decide (c ∈ s.fluents))

/-- `effect.startswith("not ")` from the source, computed on the string's
character list (Python `str.startswith` compares by characters). -/
def is_negative_effect (e : String) : Bool :=
  decide (e.data.take 4 = "not ".data)

/-- `effect[4:]` from the source: the string without its first four
characters. -/
def strip_not (e : String) : String :=
  ⟨e.data.drop 4⟩

/-- One effect application, the two-branch body shared by the causes loop
and `apply_always_rules` in executor.py: `"not f"` discards `f`
(`effect[4:]`), any other string is added. -/
def apply_effect (fl : Finset String) (effect : String) : Finset String :=
  if is_negative_effect effect then fl.erase (strip_not effect) else insert effect fl

/-- `ActionExecutor.apply_inertia(old_state, new_state)`: every fluent of
the old state that is neither in the new state's released set nor already
in its fluents is added.  The guarded loop's final set is exactly this
union (each addition is independent of the others). -/
def apply_inertia (old_state new_state : State) : State :=
  { new_state with
    fluents := new_state.fluents ∪ old_state.fluents.filter fun f => f ∉ new_state.released }

/-- `ActionExecutor.apply_always_rules`: fold every always effect over the
state's fluents, in list order. -/
def apply_always_rules (rules : List String) (s : State) : State :=
  { s with fluents := rules.foldl apply_effect s.fluents }

/-- `ActionExecutor.execute_action`: `None` if not possible; otherwise a
copy of the state gets the release fluents added to `released`, the firing
causes effects applied in order (conditions tested against the PRIOR
state's fluents), then inertia and the always rules. -/
def execute_action (ex : ActionExecutor) (action : String) (s : State) : Option State :=
  if is_action_possible ex action s then
    let new_state := s.copy
    let new_state :=
      { new_state with
        released :=
          ((ex.releases_rules.lookup action).getD []).foldl
            (fun r f => insert f r) new_state.released }
    let new_state :=
      { new_state with
        fluents :=
          ((ex.causes_rules.lookup action).getD []).foldl
            (fun fl rule =>
              if rule.2.all (fun c => decide (c ∈ s.fluents)) then
                apply_effect fl rule.1
              else fl)
            new_state.fluents }
    let new_state := apply_inertia s new_state
    let new_state := apply_always_rules ex.always_rules new_state
    some new_state
  else
    none

/-- Helper for `execute_program`: the successor states after the initial
one, or `none` the moment an action is blocked.  The source builds the
list `states` imperatively and returns `[]` on failure; this computes the
same final value. -/
def execute_program_aux (ex : ActionExecutor) : List String → State → Option (List State)
  | [], _ => some []
  | action :: rest, current =>
    match execute_action ex action current with
    | none => none
    | some new_state => (execute_program_aux ex rest new_state).map (new_state :: ·)

/-- `ActionExecutor.execute_program`: `[initial, s1, ..., sn]` when every
action executes, the empty list as soon as one is blocked. -/
def execute_program (ex : ActionExecutor) (program : List String) (initial : State) :
    List State :=
  match execute_program_aux ex program initial with
  | none => []
  | some rest => initial :: rest

/-- `ActionExecutor.check_executable`: `bool(execute_program(...))`, i.e.
the returned trajectory is non-empty. -/
def check_executable (ex : ActionExecutor) (program : List String) (initial : State) : Bool :=
  !(execute_program ex program initial).isEmpty

/-- `ActionExecutor.check_accessible`: false on the empty trajectory,
otherwise every goal fluent is in the final state's fluents. -/
def check_accessible (ex : ActionExecutor) (goal_state : List String)
    (program : List String) (initial : State) : Bool :=
  match (execute_program ex program initial).getLast? with
  | none => false
  | some final => goal_state.all fun f => decide (f ∈ final.fluents)

/-- `ActionExecutor.check_active`: membership of the agent in the group,
nothing else (the action argument is not consulted by the source). -/
def check_active (agent : String) (action : String) (group : List String) : Bool :=
  group.contains agent

/-- `ActionSemantics._parse_program(parser.parse_action(text))` for an
action-expression text, represented here by the list of action names the
text spells out.  `parse_action` returns a pyparsing `ParseResults` whose
top-level token dictionary has no `name` key (the names live inside the
per-action `Group`s), and `ParseResults.__getattr__` returns the empty
string for an undefined results name instead of raising, so
`hasattr(program_expr, "name")` in `_parse_program` is always true and the
function returns `[program_expr.name]`, that is `[""]`, whatever actions
the text names (pyparsing 3.1.0, results.py). -/
def parse_program (text_actions : List String) : List String := [""]

/-- `ActionSemantics.simulate_program`: parses the program text with
`parse_action`, flattens it with `_parse_program` — which collapses every
parsed expression to `[""]`, see `parse_program` — runs `execute_program`
on the result and returns the state history (the source re-wraps each
state as a dict with the same two fields, an isomorphic copy). -/
def simulate_program (ex : ActionExecutor) (text_actions : List String) (initial : State) :
    List State :=
  execute_program ex (parse_program text_actions) initial

/-- The default initial state of `ActionSemantics.process_query`:
`State(fluents=set(), released=set())`. -/
def emptyState : State := { fluents := ∅, released := ∅ }

/-- The `accessible` branch of `ActionSemantics.process_query`: the goal
set is the singleton of the goal effect's name, the program is the parsed
action-name list, and the initial state is the caller-provided one or the
empty default.  The query's from-effect (`initialEff`, parsed under the
name "initial") is accepted but never consulted by the source. -/
def process_accessible (ex : ActionExecutor) (goal : String) (initialEff : String)
    (actions : List String) (initial_state : Option State) : Bool :=
  check_accessible ex [goal] actions (initial_state.getD emptyState)

/-- Condition satisfaction as the spec words it (§4.3): condition `not F`
is satisfied iff `F ∉ fluents`, condition `F` iff `F ∈ fluents`.  Stated
for comparison with the source's literal-membership test. -/
def spec_condition_satisfied (c : String) (fl : Finset String) : Bool :=
  if is_negative_effect c then decide (strip_not c ∉ fl) else decide (c ∈ fl)

/-- Executability as the spec words it (§4.3): false iff some impossible
rule for the action has all conditions satisfied in the sense of
`spec_condition_satisfied`. -/
def spec_is_executable (ex : ActionExecutor) (action : String) (s : State) : Bool :=
  match ex.impossible_rules.lookup action with
  | none => true
  | some ruleList =>
    !(ruleList.any fun conditions => conditions.all fun c => spec_condition_satisfied c s.fluents)

/-- The tank-crew rule base of the spec's scenarios, encoded at the
executor level exactly as the repository's own test does
(`add_causes_rule("move", "position_changed", ["engine_on"])`,
`add_impossible_rule("move", ["not engine_on"])`, ...). -/
def tankExec : ActionExecutor :=
  { causes_rules :=
      [("move", [("position_changed", ["engine_on"])]),
       ("start_engine", [("engine_on", [])])]
    releases_rules := []
    impossible_rules := [("move", [["not engine_on"]])]
    always_rules := [] }

/-- The rule base of claim C2's failing input: a single causal rule with
the negative effect "not f" and no conditions. -/
def negEffectExec : ActionExecutor :=
  { causes_rules := [("a", [("not f", [])])]
    releases_rules := []
    impossible_rules := []
    always_rules := [] }

/-- The rule base of the spec's release scenario:
`releases open_valve pressure; causes open_valve depressurized if pressure`. -/
def valveExec : ActionExecutor :=
  { causes_rules := [("open_valve", [("depressurized", ["pressure"])])]
    releases_rules := [("open_valve", ["pressure"])]
    impossible_rules := []
    always_rules := [] }

/-- The set of fluents named by the release rules matching an action: what
the spec says the successor's `released` set should be. -/
def released_by (ex : ActionExecutor) (action : String) : Finset String :=
  ((ex.releases_rules.lookup action).getD []).foldl (fun r f => insert f r) ∅

/-- A rule base with no rules at all. -/
def emptyExec : ActionExecutor :=
  { causes_rules := [], releases_rules := [], impossible_rules := [], always_rules := [] }

/-- `execute_action` with the value of its `state` argument threaded
through and returned: every mutation in the source targets the draft built
by `State.copy` (whose two sets are fresh copies), never the argument, so
the argument's final value is returned unchanged alongside the same result
as `execute_action`. -/
def execute_action_tracked (ex : ActionExecutor) (action : String) (s : State) :
    Option State × State :=
  if is_action_possible ex action s then
    let new_state := s.copy
    let new_state :=
      { new_state with
        released :=
          ((ex.releases_rules.lookup action).getD []).foldl
            (fun r f => insert f r) new_state.released }
    let new_state :=
      { new_state with
        fluents :=
          ((ex.causes_rules.lookup action).getD []).foldl
            (fun fl rule =>
              if rule.2.all (fun c => decide (c ∈ s.fluents)) then
                apply_effect fl rule.1
              else fl)
            new_state.fluents }
    let new_state := apply_inertia s new_state
    let new_state := apply_always_rules ex.always_rules new_state
    (some new_state, s)
  else
    (none, s)

/-- An always constraint is satisfied by a fluent set in the spec's sense:
a positive constraint's fluent is present, a negative constraint's fluent
is absent. -/
def constraint_holds (e : String) (fl : Finset String) : Bool :=
  if is_negative_effect e then decide (strip_not e ∉ fl) else decide (e ∈ fl)

/-- Two always effects do not assert opposite polarities for the same
fluent. -/
def compatible (e₁ e₂ : String) : Prop :=
  (is_negative_effect e₁ = false → is_negative_effect e₂ = true → strip_not e₂ ≠ e₁) ∧
  (is_negative_effect e₁ = true → is_negative_effect e₂ = false → strip_not e₁ ≠ e₂)

/-- An always-rule list with no pair of opposite-polarity constraints on
the same fluent. -/
def conflict_free (L : List String) : Prop :=
  ∀ e₁ ∈ L, ∀ e₂ ∈ L, compatible e₁ e₂

instance (e₁ e₂ : String) : Decidable (compatible e₁ e₂) := by
  unfold compatible; infer_instance

instance (L : List String) : Decidable (conflict_free L) := by
  unfold conflict_free; infer_instance

/-- A rule base whose always rules are the non-conflicting
`["p", "not q"]`. -/
def twoAlwaysExec : ActionExecutor :=
  { causes_rules := [], releases_rules := [], impossible_rules := [],
    always_rules := ["p", "not q"] }

/-- `is_trajectory ex p s tl = true` iff `tl` is the list of successive
successor states of `s` under the actions of `p`: one state per action,
each produced from the previous by `execute_action`. -/
def is_trajectory (ex : ActionExecutor) : List String → State → List State → Bool
  | [], _, [] => true
  | action :: rest, s, s₁ :: tl =>
    (match execute_action ex action s with
     | some s₂ => decide (s₂ = s₁) && is_trajectory ex rest s₁ tl
     | none => false)
  | _, _, _ => false

/-- Accessibility as the spec words it for the `accessible` query: the
initial state is built from the query itself by asserting the from-effect's
fluent and nothing else, then the goal must hold at the end of the fully
executed program. -/
def spec_process_accessible (ex : ActionExecutor) (goal : String) (initialEff : String)
    (actions : List String) : Bool :=
  check_accessible ex [goal] actions (State.mk {initialEff} ∅)

/-- The rule base of claim C6's counterexample: `causes a g if f`. -/
def condExec : ActionExecutor :=
  { causes_rules := [("a", [("g", ["f"])])]
    releases_rules := []
    impossible_rules := []
    always_rules := [] }

/-- Claim C1 (code_bug evidence): with the rule base holding
`impossible move if [not engine_on]` (the executor-level encoding the
repository's own test uses), the action `move` is NOT blocked in the empty
state: `is_action_possible` tests the literal string "not engine_on" for
membership in the fluent set, so the rule never fires there, `move`
executes, and the `executable` verdict for the one-action program is true
— while the spec's condition-satisfaction reading (`not F` satisfied iff
`F ∉ fluents`) makes the action inexecutable, as the repository's test
`test_executor` also expects (`assert result is None`). -/
theorem c1_impossible_rule_literal_membership :
    is_action_possible tankExec "move" emptyState = true ∧
    spec_is_executable tankExec "move" emptyState = false ∧
    execute_action tankExec "move" emptyState ≠ none ∧
    check_executable tankExec ["move"] emptyState = true := by
  refine ⟨by decide, by decide, by decide, by decide⟩

/-- Claim C2 (code_bug evidence): rule `causes a (not f)`, prior state
`{f}`.  The causal effect discards `f` from the draft (which started as a
copy of the prior fluents), but `apply_inertia` — which only checks
membership in the draft, not whether a causal effect decided the fluent —
re-adds it, so the successor still contains `f`, contrary to the claimed
semantics of negative effects. -/
theorem c2_negative_effect_undone_by_inertia :
    execute_action negEffectExec "a" { fluents := {"f"}, released := ∅ } =
      some { fluents := {"f"}, released := ∅ } ∧
    "f" ∈ ({"f"} : Finset String) := by
  refine ⟨by decide, by decide⟩

/-- Claim C4 (code_bug evidence): release scenario.  From `{pressure}`,
executing `open_valve` yields fluents `{pressure, depressurized}`: the
successor starts as a full copy of the prior state, so the released fluent
`pressure` survives even though no rule set it — contrary to the spec's
scenario, which demands `pressure` absent. -/
theorem c4_released_fluent_persists :
    execute_action valveExec "open_valve" { fluents := {"pressure"}, released := ∅ } =
      some { fluents := {"pressure", "depressurized"}, released := {"pressure"} } ∧
    "pressure" ∈ ({"pressure", "depressurized"} : Finset String) := by
  refine ⟨by decide, by decide⟩

theorem mem_foldl_insert (l : List String) (init : Finset String) (x : String) :
    x ∈ l.foldl (fun r f => insert f r) init ↔ x ∈ init ∨ x ∈ l := by
  induction l generalizing init with
  | nil => simp
  | cons c t ih =>
    simp only [List.foldl_cons, ih, Finset.mem_insert, List.mem_cons]
    tauto

/-- Claim C3 counterexample: with no release rules at all, executing `a`
from a state whose released set is `{x}` yields a successor whose released
set is still `{x}` — not the empty set of fluents named by the (absent)
release rules: the prior released set is carried into the successor. -/
theorem c3_released_carried_over :
    execute_action emptyExec "a" { fluents := ∅, released := {"x"} } =
      some { fluents := ∅, released := {"x"} } ∧
    released_by emptyExec "a" = ∅ ∧
    ({"x"} : Finset String) ≠ ∅ := by
  refine ⟨by decide, by decide, by decide⟩

/-- Claim C3 as amended: the successor's released set is the prior state's
released set UNION the fluents named by the release rules matching the
action (`State.copy` copies `released` and `execute_action` only ever adds
to it, so release sets accumulate across transitions instead of being
rebuilt fresh). -/
theorem c3_released_is_union (ex : ActionExecutor) (a : String) (s s₁ : State)
    (h : execute_action ex a s = some s₁) :
    s₁.released = s.released ∪ released_by ex a := by
  unfold execute_action at h
  by_cases hp : is_action_possible ex a s = true
  · simp only [hp, if_true] at h
    obtain rfl := Option.some.inj h
    ext x
    simp [apply_always_rules, apply_inertia, State.copy, released_by, mem_foldl_insert,
      Finset.mem_union]
  · simp [hp] at h

/-- Witness for `c3_released_is_union` at the valve scenario. -/
theorem c3_released_is_union_witness :
    (State.mk {"pressure", "depressurized"} {"pressure"}).released =
      (State.mk {"pressure"} ∅).released ∪ released_by valveExec "open_valve" :=
  c3_released_is_union valveExec "open_valve" (State.mk {"pressure"} ∅)
    (State.mk {"pressure", "depressurized"} {"pressure"}) (by decide)

/-- Claim C10: `execute_action` leaves its argument state unchanged, in
both the blocked and the successful case, while computing the same result. -/
theorem c10_argument_state_unchanged (ex : ActionExecutor) (a : String) (s : State) :
    (execute_action_tracked ex a s).2 = s ∧
    (execute_action_tracked ex a s).1 = execute_action ex a s := by
  by_cases hp : is_action_possible ex a s = true <;>
    simp [execute_action_tracked, execute_action, hp]

/-- Claim C7 counterexample: in the tank-crew domain the action `move` is
declared with the agent list `[driver]`; the claim therefore requires the
query `active a in move by a` to be false (the agent `a` is in the group
but not in `move`'s declared agent list).  The source's `check_active`
consults only group membership and returns true. -/
theorem c7_membership_alone_suffices :
    check_active "a" "move" ["a"] = true ∧
    (["driver"] : List String).contains "a" = false := by
  refine ⟨by decide, by decide⟩

/-- Claim C7 as amended: the verdict of an `active` query is group
membership of the agent and nothing else — the named action (and hence any
agent list it was declared with) plays no role. -/
theorem c7_active_is_group_membership (agent action₁ action₂ : String) (group : List String) :
    check_active agent action₁ group = check_active agent action₂ group ∧
    (check_active agent action₁ group = true ↔ agent ∈ group) := by
  refine ⟨rfl, ?_⟩
  simp [check_active]

theorem constraint_holds_apply_effect (e c : String) (fl : Finset String)
    (he : constraint_holds e fl = true) (hc : compatible e c) :
    constraint_holds e (apply_effect fl c) = true := by
  unfold constraint_holds apply_effect at *
  cases h₁ : is_negative_effect e <;> cases h₂ : is_negative_effect c <;>
    simp only [h₁, h₂, if_true, if_false, Bool.false_eq_true, decide_eq_true_eq] at he ⊢
  · exact Finset.mem_insert_of_mem he
  · exact Finset.mem_erase.mpr ⟨fun h => hc.1 h₁ h₂ (by rw [h]), he⟩
  · intro hmem
    rcases Finset.mem_insert.mp hmem with h | h
    · exact hc.2 h₁ h₂ h
    · exact he h
  · intro hmem
    exact he (Finset.mem_of_mem_erase hmem)

theorem constraint_holds_apply_effect_self (c : String) (fl : Finset String) :
    constraint_holds c (apply_effect fl c) = true := by
  unfold constraint_holds apply_effect
  cases h : is_negative_effect c <;>
    simp [h, Finset.mem_erase, Finset.mem_insert]

theorem constraint_holds_foldl (L : List String) (e : String) (fl : Finset String)
    (he : constraint_holds e fl = true) (hL : ∀ c ∈ L, compatible e c) :
    constraint_holds e (L.foldl apply_effect fl) = true := by
  induction L generalizing fl with
  | nil => simpa using he
  | cons c t ih =>
    simp only [List.foldl_cons]
    exact ih (apply_effect fl c)
      (constraint_holds_apply_effect e c fl he (hL c (by simp)))
      (fun x hx => hL x (by simp [hx]))

theorem always_rules_satisfied (L : List String) (hcf : conflict_free L)
    (fl : Finset String) : ∀ e ∈ L, constraint_holds e (L.foldl apply_effect fl) = true := by
  induction L generalizing fl with
  | nil => simp
  | cons c t ih =>
    intro e he
    rcases List.mem_cons.mp he with rfl | het
    · simp only [List.foldl_cons]
      exact constraint_holds_foldl t e (apply_effect fl e)
        (constraint_holds_apply_effect_self e fl)
        (fun x hx => hcf e (by simp) x (by simp [hx]))
    · simp only [List.foldl_cons]
      exact ih
        (fun a ha b hb =>
          hcf a (List.mem_cons_of_mem _ ha) b (List.mem_cons_of_mem _ hb))
        (apply_effect fl c) e het

/-- Claim C9 counterexample: with the conflicting always rules
`["f", "not f"]`, any executed action yields a successor (here the empty
state) in which the positive constraint `f` is NOT satisfied — the claim's
universal "every successor satisfies every AlwaysConstraint" fails for
rule bases with opposite-polarity always constraints. -/
theorem c9_conflicting_always_counterexample :
    execute_action
        { causes_rules := [], releases_rules := [], impossible_rules := [],
          always_rules := ["f", "not f"] } "a" emptyState = some emptyState ∧
    "f" ∈ ["f", "not f"] ∧
    constraint_holds "f" emptyState.fluents = false := by
  refine ⟨by decide, by decide, by decide⟩

/-- Claim C9 as amended: provided no two always constraints assert
opposite polarities for the same fluent, every successor state returned by
`execute_action` satisfies every always constraint of the rule base —
regardless of, and overriding, whatever the causal effects and inertia
computed (the rules are folded over the draft last). -/
theorem c9_always_constraints_enforced (ex : ActionExecutor) (a : String) (s s₁ : State)
    (hcf : conflict_free ex.always_rules)
    (h : execute_action ex a s = some s₁) :
    ∀ e ∈ ex.always_rules, constraint_holds e s₁.fluents = true := by
  unfold execute_action at h
  by_cases hp : is_action_possible ex a s = true
  · simp only [hp, if_true] at h
    obtain rfl := Option.some.inj h
    exact always_rules_satisfied ex.always_rules hcf _
  · simp [hp] at h

/-- Witness for `c9_always_constraints_enforced`: both constraints of
`twoAlwaysExec` hold in the successor `{p}` of the empty state. -/
theorem c9_always_constraints_enforced_witness :
    constraint_holds "p" (State.mk {"p"} ∅).fluents = true ∧
    constraint_holds "not q" (State.mk {"p"} ∅).fluents = true :=
  ⟨c9_always_constraints_enforced twoAlwaysExec "a" emptyState (State.mk {"p"} ∅)
      (by decide) (by decide) "p" (by decide),
   c9_always_constraints_enforced twoAlwaysExec "a" emptyState (State.mk {"p"} ∅)
      (by decide) (by decide) "not q" (by decide)⟩

theorem execute_program_aux_some (ex : ActionExecutor) :
    ∀ (p : List String) (s : State) (tl : List State),
      execute_program_aux ex p s = some tl →
      tl.length = p.length ∧ is_trajectory ex p s tl = true := by
  intro p
  induction p with
  | nil =>
    intro s tl h
    simp only [execute_program_aux, Option.some.injEq] at h
    subst h
    simp [is_trajectory]
  | cons a rest ih =>
    intro s tl h
    cases hx : execute_action ex a s with
    | none => simp only [execute_program_aux, hx] at h; cases h
    | some s₁ =>
      simp only [execute_program_aux, hx] at h
      cases haux : execute_program_aux ex rest s₁ with
      | none => rw [haux] at h; cases h
      | some tl₁ =>
        rw [haux] at h
        simp at h
        subst h
        obtain ⟨hlen, htraj⟩ := ih s₁ tl₁ haux
        exact ⟨by simp [hlen], by simp [is_trajectory, hx, htraj]⟩

theorem execute_program_aux_none (ex : ActionExecutor) :
    ∀ (p : List String) (s : State), execute_program_aux ex p s = none →
      ∀ tl, is_trajectory ex p s tl = false := by
  intro p
  induction p with
  | nil => intro s h; cases h
  | cons a rest ih =>
    intro s h tl
    cases hx : execute_action ex a s with
    | none =>
      cases tl with
      | nil => simp [is_trajectory]
      | cons s₁ tl₁ => simp [is_trajectory, hx]
    | some s₁ =>
      simp only [execute_program_aux, hx] at h
      cases haux : execute_program_aux ex rest s₁ with
      | some tl₁ => rw [haux] at h; cases h
      | none =>
        cases tl with
        | nil => simp [is_trajectory]
        | cons s₂ tl₂ =>
          simp only [is_trajectory, hx, Bool.and_eq_false_imp, decide_eq_true_eq]
          intro heq
          subst heq
          exact ih s₁ haux tl₂

theorem is_trajectory_aux (ex : ActionExecutor) :
    ∀ (p : List String) (s : State) (tl : List State),
      is_trajectory ex p s tl = true → execute_program_aux ex p s = some tl := by
  intro p
  induction p with
  | nil =>
    intro s tl h
    cases tl with
    | nil => rfl
    | cons s₁ tl₁ => simp [is_trajectory] at h
  | cons a rest ih =>
    intro s tl h
    cases tl with
    | nil => simp [is_trajectory] at h
    | cons s₁ tl₁ =>
      cases hx : execute_action ex a s with
      | none => simp [is_trajectory, hx] at h
      | some s₂ =>
        simp only [is_trajectory, hx, Bool.and_eq_true, decide_eq_true_eq] at h
        obtain ⟨heq, htraj⟩ := h
        subst heq
        simp only [execute_program_aux, hx, ih _ _ htraj]
        rfl

/-- Claim C5 (code_bug evidence): over the tank-crew rules, the two-action
text `start_engine(driver); move(driver)` makes `simulate_program` return
the two-element history `[{}, {}]`: `_parse_program` collapses the parsed
expression to the single empty-named action, so the result is neither the
initial state followed by one successor per action (three elements) nor an
error signal.  The single-action text `move(driver)` from `{engine_on}`
likewise yields `[{engine_on}, {engine_on}]` — the successor of the action
`""` rather than of `move`; the repository's own test `test_semantics`
expects `position_changed` in that final state and fails the same way. -/
theorem c5_parse_collapse_breaks_trajectory :
    simulate_program tankExec ["start_engine", "move"] emptyState =
      [emptyState, emptyState] ∧
    (simulate_program tankExec ["start_engine", "move"] emptyState).length ≠
      ["start_engine", "move"].length + 1 ∧
    simulate_program tankExec ["move"] (State.mk {"engine_on"} ∅) =
      [State.mk {"engine_on"} ∅, State.mk {"engine_on"} ∅] ∧
    "position_changed" ∉ (State.mk {"engine_on"} ∅).fluents := by
  refine ⟨by decide, by decide, by decide, by decide⟩

/-- Claim C6 counterexample: for the query `accessible g from f in a` over
`causes a g if f` with no session initial state, building the initial
state from the from-effect (as the claim describes) yields verdict true,
but the source's `process_query` never consults the parsed from-effect: it
evaluates from the empty default state and answers false. -/
theorem c6_from_effect_ignored :
    spec_process_accessible condExec "g" "f" ["a"] = true ∧
    process_accessible condExec "g" "f" ["a"] none = false := by
  refine ⟨by decide, by decide⟩

/-- Claim C6 as amended: the `accessible` verdict is computed from the
session-provided initial state (the empty default when none is given); the
query's from-effect is ignored entirely (the verdict is invariant under
changing it), and the verdict is true iff the action sequence executes
fully from that state and the goal effect's name is among the final
state's fluents. -/
theorem c6_accessible_uses_default_state (ex : ActionExecutor) (goal iEff iEff₂ : String)
    (actions : List String) (st : Option State) :
    process_accessible ex goal iEff actions st = process_accessible ex goal iEff₂ actions st ∧
    (process_accessible ex goal iEff actions none = true ↔
      ∃ tl, is_trajectory ex actions emptyState tl = true ∧
        goal ∈ (tl.getLast?.getD emptyState).fluents) := by
  refine ⟨rfl, ?_⟩
  unfold process_accessible check_accessible execute_program
  cases h : execute_program_aux ex actions (Option.getD none emptyState) with
  | none =>
    simp only [List.getLast?_nil]
    constructor
    · intro hfalse; cases hfalse
    · rintro ⟨tl, htraj, _⟩
      have := is_trajectory_aux ex actions emptyState tl htraj
      rw [show Option.getD none emptyState = emptyState from rfl] at h
      rw [this] at h
      cases h
  | some tl =>
    simp only [List.getLast?_cons, Option.getD_some, List.all_cons, List.all_nil,
      Bool.and_true, decide_eq_true_eq]
    constructor
    · intro hmem
      refine ⟨tl, (execute_program_aux_some ex actions _ tl h).2, hmem⟩
    · rintro ⟨tl₂, htraj, hmem⟩
      have h₂ := is_trajectory_aux ex actions emptyState tl₂ htraj
      rw [show Option.getD none emptyState = emptyState from rfl] at h
      rw [h₂] at h
      obtain rfl := Option.some.inj h
      exact hmem

/-- Claim C8: the tank-crew scenario.  From the empty state, the program
`start_engine; move` runs to completion and the final fluents are exactly
`{engine_on, position_changed}` (the whole trajectory is pinned). -/
theorem c8_tank_crew_scenario :
    execute_program tankExec ["start_engine", "move"] emptyState =
      [emptyState,
       { fluents := {"engine_on"}, released := ∅ },
       { fluents := {"engine_on", "position_changed"}, released := ∅ }] := by
  decide
